import Mathlib

/-!
Shallow embedding of the diff-coverage CI gate
(`get_diff_coverage.py` / `get_diff_coverage2.py` and their callers) and
proofs about its reconciliation, threshold and rendering logic.

Line numbers are modelled as `Int` (Python integers), coverage fractions as
`ℚ` (the Python floats involved — `0.75` and exact divisions — are carried
symbolically), and the per-file coverage dictionary as an association list
`List (Int × Bool)` queried only through membership and lookup, exactly as
the Python code queries its `dict`.
-/

namespace CoverageTools

/-- The three-counter aggregate produced by `_reconcile_coverage`
(a `collections.Counter` with keys `covered` / `uncovered` / `ignored`). -/
structure LineStats where
  covered : Nat
  uncovered : Nat
  ignored : Nat
deriving DecidableEq, Repr

/-- The empty `Counter()`. -/
def LineStats.zero : LineStats := ⟨0, 0, 0⟩

/-- Counter addition (`line_stats += file_stats[...]`). -/
def LineStats.add (a b : LineStats) : LineStats :=
  ⟨a.covered + b.covered, a.uncovered + b.uncovered, a.ignored + b.ignored⟩

/-- A per-file coverage dictionary: line number → covered flag.  The Python
code only ever tests membership and reads the value, which an association
list models; the empty list is the empty map. -/
abbrev CoverageMap := List (Int × Bool)

/-- Dictionary access: `line in coverage_map` / `coverage_map[line]`
collapsed into one optional lookup. -/
def CoverageMap.lookupLine (m : CoverageMap) (line : Int) : Option Bool :=
  (m.find? (fun q => q.fst == line)).map Prod.snd

/-- One per-file change record produced by `_parse_file_diff`:
`{"file": ..., "lines_changed": ...}`. -/
structure ChangeRecord where
  file : String
  linesChanged : List Int

/-- The body of the loop in `_reconcile_coverage`: classify one changed
line.  A line absent from the map is `ignored`; a present line is `covered`
when its flag is true and `uncovered` otherwise. -/
def reconcileStep (m : CoverageMap) (st : LineStats) (line : Int) : LineStats :=
  match m.lookupLine line with
  | none => { st with ignored := st.ignored + 1 }
  | some true => { st with covered := st.covered + 1 }
  | some false => { st with uncovered := st.uncovered + 1 }

/-- `_reconcile_coverage(change, coverage_map)` from `get_diff_coverage.py`:
fold the classification over `change["lines_changed"]` starting from an
empty counter. -/
def reconcileCoverage (linesChanged : List Int) (m : CoverageMap) : LineStats :=
  linesChanged.foldl (reconcileStep m) LineStats.zero

/-- `get_coverage(line_stats)`: `covered / (covered + uncovered)`, with
`None` returned when the denominator is zero. -/
def getCoverage (ls : LineStats) : Option ℚ :=
  if ls.covered + ls.uncovered = 0 then none
  else some ((ls.covered : ℚ) / ((ls.covered : ℚ) + (ls.uncovered : ℚ)))

/-- The defaulting in `get_diff_coverage`: when `get_coverage` returns
`None`, `total_coverage` is set to `1`. -/
def totalCoverage (ls : LineStats) : ℚ :=
  (getCoverage ls).getD 1

/-- `get_target_diff_coverage(current_coverage, line_stats)`: baseline
coverage when more than five changed lines are uncovered, the fixed `0.75`
leniency floor otherwise. -/
def getTargetDiffCoverage (currentCoverage : ℚ) (ls : LineStats) : ℚ :=
  if ls.uncovered > 5 then currentCoverage else 0.75

/-- The failure condition in `get_diff_coverage`: a message is composed
(and the callers in `fail_on_coverage*.py` exit non-zero) exactly when
`total_coverage < target_coverage`. -/
def diffGateFails (currentCoverage : ℚ) (ls : LineStats) : Bool :=
  decide (totalCoverage ls < getTargetDiffCoverage currentCoverage ls)

/-- The aggregation loop of `get_diff_coverage`: for each change record,
look up its coverage map and, only when the lookup is not `None`, add the
reconciled counters into the running `line_stats`. -/
def aggregateStats (look : String → Option CoverageMap) (changes : List ChangeRecord) :
    LineStats :=
  changes.foldl
    (fun acc c =>
      match look c.file with
      | none => acc
      | some m => acc.add (reconcileCoverage c.linesChanged m))
    LineStats.zero

/-- Python's `list(range(a, b))` over integers: `a, a+1, ..., b-1`, empty
when `b ≤ a`. -/
def pyRange (a b : Int) : List Int :=
  (List.range (b - a).toNat).map (fun k => a + Int.ofNat k)

/-- The new-file range captured from a hunk header by the regex
`\@\@.*?\+(.+?) \@\@` in `_get_lines_changed`: a start line and, when the
captured text contains a comma, an explicit count. -/
structure HunkRange where
  start : Int
  count : Option Int
deriving DecidableEq, Repr

/-- `_get_lines_changed` after the regex capture: with an explicit count it
returns `list(range(start, start + count))`, otherwise the one-element list
`[start]`. -/
def getLinesChanged (h : HunkRange) : List Int :=
  match h.count with
  | some c => pyRange h.start (h.start + c)
  | none => [h.start]

/-- A `<line>` element of a Jacoco (Dialect A) report: attributes `nr`
(line number), `mi` (missed instructions) and `mb` (missed branches), read
as decimal numerals. -/
structure LineInfoA where
  nr : Int
  mi : Nat
  mb : Nat
deriving DecidableEq, Repr

/-- Dialect A covered rule (`get_diff_coverage.py` line 53):
no missed instructions and no missed branches. -/
def coveredA (l : LineInfoA) : Bool :=
  l.mi == 0 && l.mb == 0

/-- One `sourcefile` element of a Dialect A report together with its
`group`/`package` coordinate used by the XPath lookup. -/
structure SourceFileA where
  group : String
  pkg : String
  fileName : String
  lines : List LineInfoA

/-- A Dialect A report: the forest addressed by
`group[@name=g]/package[@name=p]/sourcefile[@name=f]`. -/
structure ReportA where
  files : List SourceFileA

/-- `tree.find(lookup)` for Dialect A. -/
def ReportA.findSource (r : ReportA) (g p f : String) : Option SourceFileA :=
  r.files.find? (fun s => s.group == g && s.pkg == p && s.fileName == f)

/-- The lookup half of `_get_coverage_map` (lines 38-57 of
`get_diff_coverage.py`), starting from a resolved coordinate: a missing
`sourcefile` entry yields the empty map (the Python code prints a notice
and returns `[]`, whose membership behaviour matches the empty dict);
otherwise each `line` element maps its number to the covered flag.  (A
found entry with no children is falsy in ElementTree and also yields `[]`;
its value coincides with mapping an empty line list.) -/
def getCoverageMapA (r : ReportA) (g p f : String) : CoverageMap :=
  match r.findSource g p f with
  | none => []
  | some s => s.lines.map (fun l => (l.nr, coveredA l))

/-- Full `_get_coverage_map` for Dialect A with the path-splitting regex
`(.*?)/src/.*?/((?:com|ca)/.*)/(.*?\.java)` abstracted as `parsePath`
(`none` models both the no-slash early return and a regex mismatch, the
two `return None` paths). -/
def getCoverageMapPathA (parsePath : String → Option (String × String × String))
    (r : ReportA) (file : String) : Option CoverageMap :=
  match parsePath file with
  | none => none
  | some (g, p, f) => some (getCoverageMapA r g p f)

/-- A `<line>` element of a Cobertura-style (Dialect B) report: attributes
`number` and `hits`, read as decimal numerals. -/
structure LineInfoB where
  number : Int
  hits : Nat
deriving DecidableEq, Repr

/-- Dialect B covered rule (`get_diff_coverage2.py` line 52): the `hits`
attribute equals `"1"`. -/
def coveredB (l : LineInfoB) : Bool :=
  l.hits == 1

/-- The map-building loop of Dialect B's `_get_coverage_map`
(`get_diff_coverage2.py` lines 49-52). -/
def coverageLinesB (lines : List LineInfoB) : CoverageMap :=
  lines.map (fun l => (l.number, coveredB l))

/-- The `if i not in lines_to_display: lines_to_display.append(i)` step of
`get_lines_to_display`. -/
def insertIfNew (l : List Int) (i : Int) : List Int :=
  if i ∈ l then l else l ++ [i]

/-- `get_lines_to_display(file, buffer, content)` from
`get_diff_coverage2.py` (inlined in `get_file_message` of
`get_diff_coverage.py`): for every uncovered line, append the fresh members
of `range(max(0, line - buffer), min(len(content), line + buffer + 1))`. -/
def getLinesToDisplay (uncoveredLines : List Int) (buffer : Int) (contentLength : Nat) :
    List Int :=
  uncoveredLines.foldl
    (fun acc line =>
      (pyRange (max 0 (line - buffer)) (min (contentLength : Int) (line + buffer + 1))).foldl
        insertIfNew acc)
    []

/-- The grouping loop of `get_file_message`, recursion on the remaining
keys: `lastVal` is the last element placed in the current group
(`groups[-1][-1]`), and a new group is started exactly when
`i > groups[-1][-1] + 1`. -/
def groupRunsAux (cur : List Int) (lastVal : Int) : List Int → List (List Int)
  | [] => [cur]
  | i :: rest =>
    if lastVal + 1 < i then cur :: groupRunsAux [i] i rest
    else groupRunsAux (cur ++ [i]) i rest

/-- The grouping loop of `get_file_message` over the sorted key list:
starting from `groups = []`, each key either opens a new group or extends
the last one. -/
def groupRuns : List Int → List (List Int)
  | [] => []
  | i :: rest => groupRunsAux [i] i rest

/-- `sorted(coverage.items())` keyed view: the line numbers to display in
ascending order (the `coverage` dict has exactly the display lines as
keys). -/
def sortedDisplay (uncoveredLines : List Int) (buffer : Int) (contentLength : Nat) :
    List Int :=
  List.insertionSort (· ≤ ·) (getLinesToDisplay uncoveredLines buffer contentLength)

/-- A group is a run of consecutive line numbers. -/
def ConsecRun (g : List Int) : Prop :=
  List.Chain' (fun a b => b = a + 1) g

/-- Two adjacent groups are separated by a gap of more than one line. -/
def GroupGap (g h : List Int) : Prop :=
  ∀ a b, g.getLast? = some a → h.head? = some b → a + 1 < b

/-- `gs` partitions `xs` into maximal runs of consecutive line numbers. -/
def isMaximalRunPartition (xs : List Int) (gs : List (List Int)) : Prop :=
  gs.flatten = xs ∧ (∀ g ∈ gs, g ≠ [] ∧ ConsecRun g) ∧ List.Chain' GroupGap gs

/-- Python list indexing `content[i]`: non-negative indices read from the
front (`none` models `IndexError` past the end), negative indices wrap from
the back, with `none` again past the front. -/
def pyIndex {α : Type} (content : List α) (i : Int) : Option α :=
  if 0 ≤ i then content.get? i.toNat
  else if 0 ≤ (content.length : Int) + i then content.get? ((content.length : Int) + i).toNat
  else none

theorem reconcileStep_total (m : CoverageMap) (st : LineStats) (line : Int) :
    (reconcileStep m st line).covered + (reconcileStep m st line).uncovered +
      (reconcileStep m st line).ignored
      = st.covered + st.uncovered + st.ignored + 1 := by
  unfold reconcileStep
  rcases m.lookupLine line with _ | (_ | _) <;> simp <;> omega

theorem reconcileFold_total (m : CoverageMap) (lines : List Int) (st : LineStats) :
    (lines.foldl (reconcileStep m) st).covered +
      (lines.foldl (reconcileStep m) st).uncovered +
      (lines.foldl (reconcileStep m) st).ignored
      = st.covered + st.uncovered + st.ignored + lines.length := by
  induction lines generalizing st with
  | nil => simp
  | cons a t ih =>
    rw [List.foldl_cons, ih]
    have h := reconcileStep_total m st a
    simp only [List.length_cons]
    omega

/-- Claim C5: single-file reconciliation classifies every changed line into
exactly one of the three counters — each step grows the counter total by
exactly one, and the resulting `LineStats` satisfies
`covered + uncovered + ignored = len(lines_changed)`. -/
theorem C5_theorem (c : ChangeRecord) (m : CoverageMap) :
    (∀ st line, (reconcileStep m st line).covered + (reconcileStep m st line).uncovered +
        (reconcileStep m st line).ignored = st.covered + st.uncovered + st.ignored + 1) ∧
    (reconcileCoverage c.linesChanged m).covered +
      (reconcileCoverage c.linesChanged m).uncovered +
      (reconcileCoverage c.linesChanged m).ignored = c.linesChanged.length := by
  refine ⟨fun st line => reconcileStep_total m st line, ?_⟩
  have h := reconcileFold_total m c.linesChanged LineStats.zero
  simpa [reconcileCoverage, LineStats.zero] using h

/-- Claim C2: the derived target coverage is exactly `0.75` when at most
five changed lines are uncovered, and exactly the baseline fraction when
more than five are, for every baseline in `[0, 1]`. -/
theorem C2_theorem (baseline : ℚ) (ls : LineStats)
    (h0 : 0 ≤ baseline) (h1 : baseline ≤ 1) :
    (ls.uncovered ≤ 5 → getTargetDiffCoverage baseline ls = 0.75) ∧
    (ls.uncovered > 5 → getTargetDiffCoverage baseline ls = baseline) := by
  unfold getTargetDiffCoverage
  constructor
  · intro h
    rw [if_neg (by omega)]
  · intro h
    rw [if_pos h]

/-- Witness for C2 at baseline `1/2` and six uncovered lines. -/
theorem C2_witness :
    ((⟨0, 6, 0⟩ : LineStats).uncovered ≤ 5 → getTargetDiffCoverage (1/2) ⟨0, 6, 0⟩ = 0.75) ∧
    ((⟨0, 6, 0⟩ : LineStats).uncovered > 5 → getTargetDiffCoverage (1/2) ⟨0, 6, 0⟩ = 1/2) :=
  C2_theorem (1/2) ⟨0, 6, 0⟩ (by norm_num) (by norm_num)

/-- Claim C6: with `covered + uncovered = 0` the code takes the `None`
branch of `get_coverage` (no division is attempted), `total_coverage`
defaults to `1`, and the gate cannot fail for any baseline. -/
theorem C6_theorem (ls : LineStats) (current : ℚ)
    (h : ls.covered + ls.uncovered = 0) :
    getCoverage ls = none ∧ totalCoverage ls = 1 ∧
    diffGateFails current ls = false := by
  have hc : ls.covered = 0 := by omega
  have hu : ls.uncovered = 0 := by omega
  have hnone : getCoverage ls = none := by simp [getCoverage, hc, hu]
  have htot : totalCoverage ls = 1 := by simp [totalCoverage, hnone]
  refine ⟨hnone, htot, ?_⟩
  have htarget : getTargetDiffCoverage current ls = 0.75 := by
    simp [getTargetDiffCoverage, hu]
  simp only [diffGateFails, htot, htarget, decide_eq_false_iff_not, not_lt]
  norm_num

/-- Witness for C6: a diff with only ignored lines passes unconditionally. -/
theorem C6_witness :
    getCoverage ⟨0, 0, 7⟩ = none ∧ totalCoverage ⟨0, 0, 7⟩ = 1 ∧
    diffGateFails (9/10) ⟨0, 0, 7⟩ = false :=
  C6_theorem ⟨0, 0, 7⟩ (9/10) rfl

/-- Claim C7: a changed file whose coverage-map lookup is `None`
contributes nothing to the aggregate counters — not even `ignored` — so the
total coverage and the gate decision are unchanged by its presence. -/
theorem C7_theorem (look : String → Option CoverageMap) (c : ChangeRecord)
    (pre post : List ChangeRecord) (current : ℚ)
    (h : look c.file = none) :
    aggregateStats look (pre ++ c :: post) = aggregateStats look (pre ++ post) ∧
    totalCoverage (aggregateStats look (pre ++ c :: post)) =
      totalCoverage (aggregateStats look (pre ++ post)) ∧
    diffGateFails current (aggregateStats look (pre ++ c :: post)) =
      diffGateFails current (aggregateStats look (pre ++ post)) := by
  have key : aggregateStats look (pre ++ c :: post) = aggregateStats look (pre ++ post) := by
    unfold aggregateStats
    rw [List.foldl_append, List.foldl_append, List.foldl_cons]
    congr 1
    simp [h]
  exact ⟨key, by rw [key], by rw [key]⟩

/-- Witness for C7: a single unresolvable file leaves the (empty) aggregate
untouched. -/
theorem C7_witness :
    aggregateStats (fun _ => none) ([] ++ ⟨"README.md", [1, 2]⟩ :: []) =
      aggregateStats (fun _ => none) ([] ++ []) ∧
    totalCoverage (aggregateStats (fun _ => none) ([] ++ ⟨"README.md", [1, 2]⟩ :: [])) =
      totalCoverage (aggregateStats (fun _ => none) ([] ++ [])) ∧
    diffGateFails (1/2) (aggregateStats (fun _ => none) ([] ++ ⟨"README.md", [1, 2]⟩ :: [])) =
      diffGateFails (1/2) (aggregateStats (fun _ => none) ([] ++ [])) :=
  C7_theorem (fun _ => none) ⟨"README.md", [1, 2]⟩ [] [] (1/2) rfl

theorem mem_pyRange {a b i : Int} : i ∈ pyRange a b ↔ a ≤ i ∧ i < b := by
  unfold pyRange
  rw [List.mem_map]
  constructor
  · rintro ⟨k, hk, rfl⟩
    rw [List.mem_range] at hk
    simp only [Int.ofNat_eq_coe]
    omega
  · rintro ⟨h1, h2⟩
    refine ⟨(i - a).toNat, List.mem_range.mpr (by omega), ?_⟩
    simp only [Int.ofNat_eq_coe]
    omega

theorem reconcile_empty_map (lines : List Int) (st : LineStats) :
    lines.foldl (reconcileStep []) st = ⟨st.covered, st.uncovered, st.ignored + lines.length⟩ := by
  induction lines generalizing st with
  | nil => simp
  | cons a t ih =>
    rw [List.foldl_cons]
    have hstep : reconcileStep [] st a = { st with ignored := st.ignored + 1 } := rfl
    rw [hstep, ih]
    simp only [List.length_cons, LineStats.mk.injEq, true_and, and_true]
    omega

/-- Claim C1 (amended): when the path resolves to a coordinate with no
entry in the report, the lookup returns the empty map — distinct from
`none` — and reconciliation then classifies every changed line as
`ignored` (neither covered nor uncovered). -/
theorem C1_theorem (parsePath : String → Option (String × String × String))
    (r : ReportA) (file g p f : String) (lines : List Int)
    (hpp : parsePath file = some (g, p, f))
    (hfind : r.findSource g p f = none) :
    getCoverageMapPathA parsePath r file = some [] ∧
    reconcileCoverage lines [] = ⟨0, 0, lines.length⟩ := by
  constructor
  · simp [getCoverageMapPathA, hpp, getCoverageMapA, hfind]
  · simpa [reconcileCoverage, LineStats.zero] using reconcile_empty_map lines ⟨0, 0, 0⟩

/-- Witness for C1 on a one-file report miss. -/
theorem C1_witness :
    getCoverageMapPathA (fun _ => some ("app", "com/x", "A.java")) ⟨[]⟩
      "app/src/main/java/com/x/A.java" = some [] ∧
    reconcileCoverage [3, 4] [] = ⟨0, 0, 2⟩ :=
  C1_theorem (fun _ => some ("app", "com/x", "A.java")) ⟨[]⟩
    "app/src/main/java/com/x/A.java" "app" "com/x" "A.java" [3, 4] rfl rfl

/-- Counterexample to Claim C1 as stated: the lookup does return the empty
map, but the changed line is then counted `ignored`, not `uncovered`. -/
theorem C1_counterexample :
    getCoverageMapPathA (fun _ => some ("app", "com/x", "A.java")) ⟨[]⟩
      "app/src/main/java/com/x/A.java" = some [] ∧
    (reconcileCoverage [10] []).uncovered = 0 ∧
    (reconcileCoverage [10] []).ignored = 1 := by
  refine ⟨rfl, rfl, rfl⟩

/-- Claim C3 (amended): a Dialect A line is marked covered iff it records
zero missed instructions and zero missed branches; a Dialect B line is
marked covered iff its hit count equals exactly 1 (not merely positive). -/
theorem C3_theorem (r : ReportA) (g p f : String) (s : SourceFileA)
    (la : LineInfoA) (lb : LineInfoB)
    (hfind : r.findSource g p f = some s) :
    getCoverageMapA r g p f = s.lines.map (fun l => (l.nr, coveredA l)) ∧
    (coveredA la = true ↔ (la.mi = 0 ∧ la.mb = 0)) ∧
    (coveredB lb = true ↔ lb.hits = 1) := by
  refine ⟨?_, ?_, ?_⟩
  · simp [getCoverageMapA, hfind]
  · simp [coveredA]
  · simp [coveredB]

/-- Witness for C3 on a one-line report. -/
theorem C3_witness :
    getCoverageMapA ⟨[⟨"app", "com/x", "A.java", [⟨5, 0, 0⟩]⟩]⟩ "app" "com/x" "A.java" =
      ([⟨5, 0, 0⟩] : List LineInfoA).map (fun l => (l.nr, coveredA l)) ∧
    (coveredA ⟨5, 0, 0⟩ = true ↔ ((5 : Int), (0 : Nat), (0 : Nat)).2.1 = 0 ∧ (0 : Nat) = 0) ∧
    (coveredB ⟨7, 1⟩ = true ↔ (1 : Nat) = 1) := by
  have h := C3_theorem ⟨[⟨"app", "com/x", "A.java", [⟨5, 0, 0⟩]⟩]⟩ "app" "com/x" "A.java"
    ⟨"app", "com/x", "A.java", [⟨5, 0, 0⟩]⟩ ⟨5, 0, 0⟩ ⟨7, 1⟩ rfl
  exact h

/-- Counterexample to Claim C3 as stated: a Dialect B line hit twice has a
positive hit count yet is recorded as uncovered in the coverage map. -/
theorem C3_counterexample :
    0 < (⟨7, 2⟩ : LineInfoB).hits ∧
    (coverageLinesB [⟨7, 2⟩]).lookupLine 7 = some false := by
  refine ⟨by norm_num, rfl⟩

/-- Claim C4: with an explicit count the parsed changed-line list is
exactly the contiguous range `[start, start + count)`; with no count it is
exactly `[start]`; in particular the hunk `@@ -5,0 +10,3 @@` yields
`[10, 11, 12]`. -/
theorem C4_theorem (h : HunkRange) (c : Int) :
    (h.count = some c →
      getLinesChanged h = pyRange h.start (h.start + c) ∧
      ∀ i, i ∈ getLinesChanged h ↔ h.start ≤ i ∧ i < h.start + c) ∧
    (h.count = none → getLinesChanged h = [h.start]) ∧
    getLinesChanged ⟨10, some 3⟩ = [10, 11, 12] := by
  refine ⟨?_, ?_, by decide⟩
  · intro hc
    constructor
    · simp [getLinesChanged, hc]
    · intro i
      simp only [getLinesChanged, hc]
      exact mem_pyRange
  · intro hc
    simp [getLinesChanged, hc]

/-- Witness for C4 at the hunk `@@ -5,0 +10,3 @@`. -/
theorem C4_witness :
    getLinesChanged ⟨10, some 3⟩ = pyRange 10 (10 + 3) ∧
    (∀ i, i ∈ getLinesChanged ⟨10, some 3⟩ ↔ 10 ≤ i ∧ i < 10 + 3) :=
  (C4_theorem ⟨10, some 3⟩ 3).1 rfl

/-- Claim C9 (amended): a hunk header with an explicit zero count
(a pure deletion such as `+10,0`) contributes no changed lines at all;
only a header with no count produces the single line `start`. -/
theorem C9_theorem (s : Int) :
    getLinesChanged ⟨s, some 0⟩ = [] ∧ getLinesChanged ⟨s, none⟩ = [s] := by
  constructor
  · simp [getLinesChanged, pyRange]
  · rfl

/-- Counterexample to Claim C9 as stated: the hunk `+10,0` yields the empty
changed-line list, not a one-line change. -/
theorem C9_counterexample :
    getLinesChanged ⟨10, some 0⟩ = [] ∧ ¬ getLinesChanged ⟨10, some 0⟩ ≠ [] := by
  refine ⟨by decide, by decide⟩

theorem mem_foldl_insertIfNew (xs : List Int) (acc : List Int) (i : Int) :
    i ∈ xs.foldl insertIfNew acc ↔ i ∈ acc ∨ i ∈ xs := by
  induction xs generalizing acc with
  | nil => simp
  | cons a t ih =>
    rw [List.foldl_cons, ih]
    unfold insertIfNew
    by_cases h : a ∈ acc
    · rw [if_pos h]
      simp only [List.mem_cons]
      constructor
      · rintro (hi | hi)
        · exact Or.inl hi
        · exact Or.inr (Or.inr hi)
      · rintro (hi | hi | hi)
        · exact Or.inl hi
        · exact Or.inl (hi ▸ h)
        · exact Or.inr hi
    · rw [if_neg h]
      simp only [List.mem_append, List.mem_singleton, List.mem_cons]
      tauto

theorem nodup_foldl_insertIfNew (xs : List Int) (acc : List Int) (h : acc.Nodup) :
    (xs.foldl insertIfNew acc).Nodup := by
  induction xs generalizing acc with
  | nil => exact h
  | cons a t ih =>
    rw [List.foldl_cons]
    apply ih
    unfold insertIfNew
    split
    · exact h
    · rename_i ha
      simp [List.nodup_append, h, ha]

theorem mem_display_fold (u : List Int) (p : Int) (N : Nat) (acc : List Int) (i : Int) :
    i ∈ u.foldl
        (fun acc line =>
          (pyRange (max 0 (line - p)) (min (N : Int) (line + p + 1))).foldl insertIfNew acc)
        acc
      ↔ i ∈ acc ∨ ∃ L ∈ u, max 0 (L - p) ≤ i ∧ i < min (N : Int) (L + p + 1) := by
  induction u generalizing acc with
  | nil => simp
  | cons a t ih =>
    rw [List.foldl_cons, ih, mem_foldl_insertIfNew]
    constructor
    · rintro ((hi | hb) | ⟨L, hL, hb⟩)
      · exact Or.inl hi
      · exact Or.inr ⟨a, List.mem_cons_self a t, mem_pyRange.mp hb⟩
      · exact Or.inr ⟨L, List.mem_cons_of_mem a hL, hb⟩
    · rintro (hi | ⟨L, hL, hb⟩)
      · exact Or.inl (Or.inl hi)
      · rcases List.mem_cons.mp hL with rfl | hL2
        · exact Or.inl (Or.inr (mem_pyRange.mpr hb))
        · exact Or.inr ⟨L, hL2, hb⟩

theorem mem_getLinesToDisplay (u : List Int) (p : Int) (N : Nat) (i : Int) :
    i ∈ getLinesToDisplay u p N ↔
      ∃ L ∈ u, max 0 (L - p) ≤ i ∧ i < min (N : Int) (L + p + 1) := by
  have h := mem_display_fold u p N [] i
  simpa [getLinesToDisplay] using h

theorem nodup_getLinesToDisplay (u : List Int) (p : Int) (N : Nat) :
    (getLinesToDisplay u p N).Nodup := by
  unfold getLinesToDisplay
  suffices h : ∀ acc : List Int, acc.Nodup →
      (u.foldl
        (fun acc line =>
          (pyRange (max 0 (line - p)) (min (N : Int) (line + p + 1))).foldl insertIfNew acc)
        acc).Nodup by
    exact h [] List.nodup_nil
  induction u with
  | nil => exact fun acc ha => ha
  | cons a t ih =>
    intro acc ha
    rw [List.foldl_cons]
    exact ih _ (nodup_foldl_insertIfNew _ _ ha)

theorem flatten_groupRunsAux (rest : List Int) :
    ∀ cur lastVal, (groupRunsAux cur lastVal rest).flatten = cur ++ rest := by
  induction rest with
  | nil =>
    intro cur lastVal
    simp [groupRunsAux]
  | cons i t ih =>
    intro cur lastVal
    unfold groupRunsAux
    split
    · simp [ih]
    · rw [ih]
      simp

theorem flatten_groupRuns (xs : List Int) : (groupRuns xs).flatten = xs := by
  cases xs with
  | nil => rfl
  | cons i t => simpa using flatten_groupRunsAux t [i] i

theorem groupRunsAux_head (rest : List Int) :
    ∀ cur lastVal, ∃ ext gs, groupRunsAux cur lastVal rest = (cur ++ ext) :: gs := by
  induction rest with
  | nil => exact fun cur lastVal => ⟨[], [], by simp [groupRunsAux]⟩
  | cons i t ih =>
    intro cur lastVal
    unfold groupRunsAux
    split
    · exact ⟨[], groupRunsAux [i] i t, by simp⟩
    · obtain ⟨ext, gs, hgs⟩ := ih (cur ++ [i]) i
      exact ⟨i :: ext, gs, by rw [hgs, List.append_assoc]; rfl⟩

theorem groupRunsAux_spec (rest : List Int) :
    ∀ cur lastVal, cur ≠ [] → cur.getLast? = some lastVal → ConsecRun cur →
      List.Chain' (· < ·) (lastVal :: rest) →
      (∀ g ∈ groupRunsAux cur lastVal rest, g ≠ [] ∧ ConsecRun g) ∧
      List.Chain' GroupGap (groupRunsAux cur lastVal rest) := by
  induction rest with
  | nil =>
    intro cur lastVal hne hlast hrun _
    constructor
    · intro g hg
      simp only [groupRunsAux, List.mem_singleton] at hg
      subst hg
      exact ⟨hne, hrun⟩
    · simp [groupRunsAux]
  | cons i t ih =>
    intro cur lastVal hne hlast hrun hchain
    rw [List.chain'_cons] at hchain
    obtain ⟨hlt, hchain2⟩ := hchain
    unfold groupRunsAux
    split
    · rename_i hgap
      have hrec := ih [i] i (by simp) (by simp) (by simp [ConsecRun]) hchain2
      constructor
      · intro g hg
        rcases List.mem_cons.mp hg with rfl | hg2
        · exact ⟨hne, hrun⟩
        · exact hrec.1 g hg2
      · rw [List.chain'_cons']
        refine ⟨?_, hrec.2⟩
        intro g hg
        obtain ⟨ext, gs, hgs⟩ := groupRunsAux_head t [i] i
        rw [hgs] at hg
        simp only [List.head?_cons, Option.mem_def, Option.some.injEq] at hg
        subst hg
        intro a b ha hb
        rw [hlast] at ha
        injection ha with ha2
        subst ha2
        simp only [List.cons_append, List.head?_cons, Option.some.injEq] at hb
        omega
    · rename_i hgap
      have hi : i = lastVal + 1 := by omega
      have happ : (cur ++ [i]).getLast? = some i := by
        rw [List.getLast?_append_cons]
        rfl
      have hrun2 : ConsecRun (cur ++ [i]) := by
        unfold ConsecRun at hrun ⊢
        rw [List.chain'_append]
        refine ⟨hrun, by simp, ?_⟩
        intro x hx y hy
        rw [hlast] at hx
        simp only [Option.mem_def, Option.some.injEq] at hx
        subst hx
        simp only [List.head?_cons, Option.mem_def, Option.some.injEq] at hy
        subst hy
        omega
      exact ih (cur ++ [i]) i (by simp) happ hrun2 hchain2

theorem groupRuns_spec (xs : List Int) (hs : List.Chain' (· < ·) xs) :
    (∀ g ∈ groupRuns xs, g ≠ [] ∧ ConsecRun g) ∧ List.Chain' GroupGap (groupRuns xs) := by
  cases xs with
  | nil => constructor <;> simp [groupRuns]
  | cons i t =>
    exact groupRunsAux_spec t [i] i (by simp) (by simp) (by simp [ConsecRun]) hs

theorem chain'_lt_sortedDisplay (u : List Int) (p : Int) (N : Nat) :
    List.Chain' (· < ·) (sortedDisplay u p N) := by
  have hsorted : List.Pairwise (· ≤ ·) (sortedDisplay u p N) :=
    List.sorted_insertionSort (· ≤ ·) (getLinesToDisplay u p N)
  have hnodup : (sortedDisplay u p N).Nodup :=
    ((List.perm_insertionSort (· ≤ ·) (getLinesToDisplay u p N)).nodup_iff).mpr
      (nodup_getLinesToDisplay u p N)
  exact ((hsorted.and hnodup).imp (fun h => lt_of_le_of_ne h.1 h.2)).chain'

/-- Claim C8 (amended): the displayed set is exactly the union over each
uncovered line `L` of the window `max(0, L - p) ≤ i < min(N, L + p + 1)` —
the code clips with 0-based bounds, so line 0 can be displayed and line `N`
never is — deduplicated, and the sorted keys are grouped into maximal runs
of consecutive line numbers. -/
theorem C8_theorem (u : List Int) (p : Int) (N : Nat) :
    (∀ i : Int, i ∈ getLinesToDisplay u p N ↔
        ∃ L ∈ u, max 0 (L - p) ≤ i ∧ i < min (N : Int) (L + p + 1)) ∧
    (getLinesToDisplay u p N).Nodup ∧
    isMaximalRunPartition (sortedDisplay u p N) (groupRuns (sortedDisplay u p N)) := by
  refine ⟨fun i => mem_getLinesToDisplay u p N i, nodup_getLinesToDisplay u p N, ?_⟩
  have hspec := groupRuns_spec _ (chain'_lt_sortedDisplay u p N)
  exact ⟨flatten_groupRuns _, hspec.1, hspec.2⟩

/-- Counterexample to Claim C8 as stated: a one-line file with its single
line uncovered and padding 1 displays `[0]`, not the 1-based clipped window
`{1}`. -/
theorem C8_counterexample :
    getLinesToDisplay [1] 1 1 = [0] ∧
    ¬ (∀ i : Int, i ∈ getLinesToDisplay [1] 1 1 ↔
        ∃ L ∈ ([1] : List Int), max 1 (L - 1) ≤ i ∧ i ≤ min 1 (L + 1)) := by
  refine ⟨by decide, ?_⟩
  intro hall
  obtain ⟨L, hL, h1, h2⟩ := (hall 0).mp (by decide)
  simp only [List.mem_singleton] at hL
  subst hL
  norm_num at h1

/-- Claim C10: with at least one file line, padding at least 1, and an
uncovered line number `L ≤ p`, line 0 enters the display set; indexing it
renders the file's last line (Python's `content[-1]` wraps around), and no
line in the display set indexes out of bounds. -/
theorem C10_theorem (content : List String) (u : List Int) (p L : Int)
    (hN : 1 ≤ content.length) (hp : 1 ≤ p) (hL : L ∈ u) (hL0 : 0 ≤ L) (hLp : L ≤ p) :
    0 ∈ getLinesToDisplay u p content.length ∧
    pyIndex content (0 - 1) = content.getLast? ∧
    ∀ i ∈ getLinesToDisplay u p content.length, (pyIndex content (i - 1)).isSome := by
  refine ⟨?_, ?_, ?_⟩
  · refine (mem_getLinesToDisplay u p content.length 0).mpr ⟨L, hL, ?_, ?_⟩
    · simp only [max_le_iff]
      omega
    · simp only [lt_min_iff]
      omega
  · have hne : ¬ (0 : Int) ≤ 0 - 1 := by norm_num
    have hok : (0 : Int) ≤ (content.length : Int) + (0 - 1) := by omega
    unfold pyIndex
    rw [if_neg hne, if_pos hok, List.get?_eq_getElem?, List.getLast?_eq_getElem?]
    congr 1
    omega
  · intro i hi
    obtain ⟨L2, hL2, hlo, hhi⟩ := (mem_getLinesToDisplay u p content.length i).mp hi
    have h0i : (0 : Int) ≤ i := le_trans (le_max_left 0 (L2 - p)) hlo
    have hiN : i < (content.length : Int) := lt_of_lt_of_le hhi (min_le_left _ _)
    by_cases hcase : (0 : Int) ≤ i - 1
    · unfold pyIndex
      rw [if_pos hcase, List.get?_eq_getElem?]
      have hlt : i.toNat - 1 < content.length := by omega
      simp [List.getElem?_eq_getElem hlt]
    · unfold pyIndex
      rw [if_neg hcase]
      have hok : (0 : Int) ≤ (content.length : Int) + (i - 1) := by omega
      rw [if_pos hok, List.get?_eq_getElem?]
      have hlt : ((content.length : Int) + (i - 1)).toNat < content.length := by omega
      simp [List.getElem?_eq_getElem hlt]

/-- Witness for C10 on a two-line file with line 1 uncovered and padding 1. -/
theorem C10_witness :
    0 ∈ getLinesToDisplay [1] 1 (["alpha", "beta"] : List String).length ∧
    pyIndex (["alpha", "beta"] : List String) (0 - 1) =
      (["alpha", "beta"] : List String).getLast? ∧
    (pyIndex (["alpha", "beta"] : List String) ((0 : Int) - 1)).isSome := by
  have h := C10_theorem ["alpha", "beta"] [1] 1 1 (by norm_num) le_rfl
    (List.mem_singleton.mpr rfl) (by norm_num) le_rfl
  exact ⟨h.1, h.2.1, h.2.2 0 h.1⟩

end CoverageTools
